import Mathlib

/-!
Verification of the gitv repository specification against the source.

Shallow embedding of the relevant parts of the source:
  - `ActiveLongest::calc_longest` and the streak aggregates (src/executor.rs)
  - `Author::domain` (src/config.rs, src/git_impl.rs)
  - `ChartRender::parse_variable` and the chart data walkers (src/render.rs)
  - `GitImpl::calc_range`, `Parser::parse_commit` and the extension
    normalization (src/gitimp.rs)

Machine integers of the source (i64, usize) are modelled as Int and Nat;
the i64 `/` operator of Rust truncates toward zero and is modelled by
`Int.tdiv`.  Fallible code is modelled with Option.
-/

namespace Gitv

/-! ## Streak algorithm: ActiveLongest::calc_longest (src/executor.rs 610-646)

The Rust loop `for i in 0..data.len() - 1` reads `data[i]` and `data[i + 1]`
only; it is embedded as a structural recursion over consecutive pairs of
the list, carrying the loop index `i`.  The state record mirrors the six
mutable locals of the source (`count`, `max`, `l`, `r`, `start`, `end`;
the keyword `end` is renamed `stop`). -/

structure LState where
  count : Int
  max : Int
  l : Nat
  r : Nat
  start : Nat
  stop : Nat
  deriving Repr, DecidableEq

/-- One sweep of the two-pointer loop body of `calc_longest`, processing
consecutive pairs starting at index `i`. -/
def sweep (ratio : Int) (s : LState) (i : Nat) : List Int → LState
  | x :: y :: rest =>
    let k := Int.tdiv y ratio - Int.tdiv x ratio
    let t :=
      if k = 0 ∨ k = 1 then
        { s with r := i + 1, count := s.count + k }
      else if s.count > s.max then
        { count := 1, max := s.count, l := i + 1, r := s.r, start := s.l, stop := s.r }
      else
        { s with l := i + 1, count := 1 }
    sweep ratio t (i + 1) (y :: rest)
  | _ => s

/-- Embedding of `ActiveLongest::calc_longest(data, ratio)`: returns the
`(count, start_value, end_value)` triple. -/
def calc_longest (data : List Int) (ratio : Int) : Int × Int × Int :=
  match data with
  | [] => (0, 0, 0)
  | [x] => (1, x, x)
  | x :: y :: rest =>
    let s := sweep ratio ⟨1, 0, 0, 0, 0, 0⟩ 0 (x :: y :: rest)
    if s.count > s.max then
      (s.count, (x :: y :: rest).getD s.l 0, (x :: y :: rest).getD s.r 0)
    else
      (s.max, (x :: y :: rest).getD s.start 0, (x :: y :: rest).getD s.stop 0)

/-! ### Specification-side notions for the streak claims (from the words of
the spec): maximal runs of a list whose consecutive differences are in
`{0, 1}`, the length of a run, and the number of distinct values of a run. -/

/-- Maximal runs: split the list exactly between the positions whose
difference is not in `{0, 1}`. -/
def runs : List Int → List (List Int)
  | [] => []
  | [x] => [[x]]
  | x :: y :: rest =>
    match runs (y :: rest) with
    | [] => [[x]]
    | g :: gs =>
      if y - x = 0 ∨ y - x = 1 then (x :: g) :: gs else [x] :: g :: gs

/-- The length of the longest maximal run (the measure named by the claim). -/
def longestRunByLength (xs : List Int) : Int :=
  ((runs xs).map (fun r => (r.length : Int))).foldr max 0

/-- The number of distinct values of a run. -/
def runDistinct (r : List Int) : Int :=
  (r.dedup.length : Int)

/-- The largest number of distinct values over the maximal runs. -/
def longestRunByDistinct (xs : List Int) : Int :=
  ((runs xs).map runDistinct).foldr max 0

/-! ## Calendar arithmetic

The source relies on the chrono library for `Utc.timestamp(ts, 0)`,
`format("%Y-%m-%d")` and `DateTime::parse_from_rfc3339`.  These library
calls are modelled with the standard proleptic-Gregorian civil-date
conversions (the algorithms chrono implements). -/

/-- Days since the Unix epoch of the civil date `(y, m, d)`. -/
def daysFromCivil (y m d : Int) : Int :=
  let y := if m ≤ 2 then y - 1 else y
  let era := Int.fdiv y 400
  let yoe := y - era * 400
  let mp := Int.emod (m + 9) 12
  let doy := Int.fdiv (153 * mp + 2) 5 + d - 1
  let doe := yoe * 365 + Int.fdiv yoe 4 - Int.fdiv yoe 100 + doy
  era * 146097 + doe - 719468

/-- Civil date `(y, m, d)` of a count of days since the Unix epoch. -/
def civilFromDays (z : Int) : Int × Int × Int :=
  let z := z + 719468
  let era := Int.fdiv z 146097
  let doe := z - era * 146097
  let yoe := Int.fdiv (doe - Int.fdiv doe 1460 + Int.fdiv doe 36524 - Int.fdiv doe 146096) 365
  let y := yoe + era * 400
  let doy := doe - (365 * yoe + Int.fdiv yoe 4 - Int.fdiv yoe 100)
  let mp := Int.fdiv (5 * doy + 2) 153
  let d := doy - Int.fdiv (153 * mp + 2) 5 + 1
  let m := mp + (if mp < 10 then 3 else -9)
  (if m ≤ 2 then y + 1 else y, m, d)

/-- Left-pad the decimal digits of `n` with zeros up to width `w`. -/
def padNat (w : Nat) (n : Nat) : String :=
  let s := toString n
  String.mk (List.replicate (w - s.length) '0') ++ s

/-- Model of `Utc.timestamp(ts, 0).format("%Y-%m-%d")` used by
`ActiveLongestTime::evaluate` (src/executor.rs 747-754) and by
`GitImpl::calc_range` (src/gitimp.rs 306-324). -/
def formatYmd (ts : Int) : String :=
  let c := civilFromDays (Int.fdiv ts 86400)
  padNat 4 c.1.toNat ++ "-" ++ padNat 2 c.2.1.toNat ++ "-" ++ padNat 2 c.2.2.toNat

/-! ## RFC-3339 parsing

`TimeInputAccumulator::update` (src/executor.rs 544-555) calls
`DateTime::parse_from_rfc3339(v).unwrap().timestamp()`.  The parser below
models the chrono parser on the grammar
`YYYY-MM-DDTHH:MM:SS[.frac](+HH:MM|-HH:MM|Z)`; `timestamp()` discards the
fractional part. -/

/-- Read `n` decimal digits from the front of the character list. -/
def readDigits : Nat → List Char → Option (Nat × List Char)
  | 0, cs => some (0, cs)
  | n + 1, c :: cs =>
    if c.isDigit then
      match readDigits n cs with
      | some (v, rest) => some ((c.toNat - '0'.toNat) * 10 ^ n + v, rest)
      | none => none
    else none
  | _ + 1, [] => none

/-- Expect one literal character. -/
def expectChar (c : Char) : List Char → Option (List Char)
  | a :: cs => if a = c then some cs else none
  | [] => none

/-- Parse the timezone offset suffix; returns the offset in seconds. -/
def parseOffset : List Char → Option Int
  | ['Z'] => some 0
  | c :: cs =>
    if c = '+' ∨ c = '-' then
      match readDigits 2 cs with
      | some (oh, rest) =>
        match expectChar ':' rest with
        | some rest2 =>
          match readDigits 2 rest2 with
          | some (om, []) =>
            let total : Int := oh * 3600 + om * 60
            some (if c = '-' then -total else total)
          | _ => none
        | none => none
      | none => none
    else none
  | [] => none

/-- Parse an RFC-3339 datetime string and return its Unix timestamp in
seconds, the composition of `DateTime::parse_from_rfc3339` and
`timestamp()`. -/
def rfc3339Timestamp (s : String) : Option Int := do
  let cs := s.data
  let (y, cs) ← readDigits 4 cs
  let cs ← expectChar '-' cs
  let (mo, cs) ← readDigits 2 cs
  let cs ← expectChar '-' cs
  let (d, cs) ← readDigits 2 cs
  let cs ← expectChar 'T' cs
  let (h, cs) ← readDigits 2 cs
  let cs ← expectChar ':' cs
  let (mi, cs) ← readDigits 2 cs
  let cs ← expectChar ':' cs
  let (sec, cs) ← readDigits 2 cs
  let cs :=
    match cs with
    | '.' :: rest => rest.dropWhile (fun c => c.isDigit)
    | _ => cs
  let off ← parseOffset cs
  return daysFromCivil y mo d * 86400 + h * 3600 + mi * 60 + sec - off

/-! ## The streak aggregate pipeline (src/executor.rs 525-754)

`TimeInputAccumulator::update` pushes the timestamp of every input row;
`ActiveLongest::merge_index` flattens the partition states, sorts the
vector ascending (`sort_unstable`, modelled by insertion sort, which
computes the same ascending permutation) and runs `calc_longest` with
ratio `3600 * 24`, storing one component of the triple as `n`;
`ActiveLongestCount::evaluate` returns `n` and
`ActiveLongestTime::evaluate` renders `n` as `%Y-%m-%d` in UTC. -/

/-- Insert a value into an ascending list. -/
def insertAsc (x : Int) : List Int → List Int
  | [] => [x]
  | y :: ys => if x ≤ y then x :: y :: ys else y :: insertAsc x ys

/-- Ascending sort, the model of `sort_unstable`. -/
def sortAsc (l : List Int) : List Int :=
  l.foldr insertAsc []

/-- Model of `TimeInputAccumulator::update_batch` over a UTF-8 column:
parse each datetime with `parse_from_rfc3339` and push its timestamp
(the `unwrap` makes a malformed row a panic, modelled as `none`). -/
def tlaUpdate (column : List String) : Option (List Int) :=
  column.foldl
    (fun acc v => do
      let data ← acc
      let ts ← rfc3339Timestamp v
      return data ++ [ts])
    (some [])

/-- Model of `ActiveLongest::merge_index` over the flattened list state:
sort ascending, then run `calc_longest` with ratio `3600 * 24` and keep
the component selected by `index` (0 count, 1 start, 2 end). -/
def mergeIndex (data : List Int) (index : Nat) : Int :=
  let sorted := sortAsc data
  let ret := calc_longest sorted (3600 * 24)
  match index with
  | 0 => ret.1
  | 1 => ret.2.1
  | 2 => ret.2.2
  | _ => 0

/-- Model of `ActiveLongestCount::evaluate`: the stored `n` as i64. -/
def activeLongestCount (column : List String) : Option Int := do
  let data ← tlaUpdate column
  return mergeIndex data 0

/-- Model of `ActiveLongestTime::evaluate`: the stored `n` rendered as
`%Y-%m-%d` in UTC (no day is added). -/
def activeLongestTime (column : List String) (index : Nat) : Option String := do
  let data ← tlaUpdate column
  return formatYmd (mergeIndex data index)

/-! ## Range partitioner: GitImpl::calc_range (src/gitimp.rs 306-324)

The source loop `while start + duration <= end` pushes a full window and
advances `start`; afterwards one final pair `(start, end)` is pushed.  The
guard `0 < duration` is required for the loop to terminate; the source
only ever calls it with `duration = 3600 * 24 * 120` (and the test with
`86400`). -/

/-- Loop of `calc_range`. -/
def calcRangeGo (duration e : Int) (start : Int) : List (String × String) :=
  if _h : 0 < duration ∧ start + duration ≤ e then
    (formatYmd start, formatYmd (start + duration)) :: calcRangeGo duration e (start + duration)
  else
    [(formatYmd start, formatYmd e)]
  termination_by (e - start).toNat
  decreasing_by
    omega

/-- Embedding of `GitImpl::calc_range(duration, start, end)`. -/
def calc_range (duration start e : Int) : List (String × String) :=
  calcRangeGo duration e start

/-- The number of full windows of width `d` fitting between `s` and `e`. -/
def numFullWindows (d s e : Int) : Nat :=
  if s + d ≤ e then (e - s).toNat / d.toNat else 0

/-- Specification-side shape of the partition (from the words of the
claim): consecutive full windows of exactly `d` seconds while one fits
before `e`, followed by one final short window ending at `e`. -/
def windowsSpec (d s e : Int) : List (String × String) :=
  let n := numFullWindows d s e
  (List.range n).map
      (fun i : Nat => (formatYmd (s + (i : Int) * d), formatYmd (s + ((i : Int) + 1) * d)))
    ++ [(formatYmd (s + (n : Int) * d), formatYmd e)]

/-! ## Author (src/config.rs 29-41, src/git_impl.rs 6-18)

`Author::domain` computes `email.splitn(2, '@')` and returns the last
field (`unwrap_or("")` in config.rs, `unwrap()` in git_impl.rs; `splitn`
always yields at least one field, so the two agree). -/

structure Author where
  name : String
  email : String
  deriving Repr, DecidableEq

/-- `str::splitn(2, sep)` on a character list: split at the first
occurrence of `sep` into at most two fields. -/
def splitn2 (sep : Char) : List Char → List (List Char)
  | [] => [[]]
  | c :: cs =>
    if c = sep then [[], cs]
    else
      match splitn2 sep cs with
      | [] => [[c]]
      | f :: fs => (c :: f) :: fs

/-- Embedding of `Author::domain`: the last field of
`email.splitn(2, '@')`. -/
def domain (a : Author) : String :=
  String.mk (((splitn2 '@' a.email.data).getLast?).getD [])

/-- Drop the characters up to and including the first occurrence of
`sep`. -/
def dropThrough (sep : Char) : List Char → List Char
  | [] => []
  | c :: cs => if c = sep then cs else dropThrough sep cs

/-- The substring after the first (leftmost) `@`, the whole string when
no `@` occurs: the spec-side description matching the source. -/
def afterFirstAt (cs : List Char) : List Char :=
  if ('@') ∈ cs then dropThrough '@' cs else cs

/-- The substring after the rightmost `@`, empty when no `@` occurs: the
function described by the claim as written. -/
def afterRightmostAt (cs : List Char) : List Char :=
  if ('@') ∈ cs then (cs.reverse.takeWhile (fun c => c ≠ '@')).reverse else []

/-! ## Placeholder parser: ChartRender::parse_variable (src/render.rs 381-397)

`parse_variable` locates the first `${`, the first `}`, and when at least
one character lies between them, splits the inside once on `:`; with no
`:` the result is `(0, inside)`; with a `:` whose left part parses as a
usize the result is `(index, right)`; otherwise there is no result.  The
source works with byte indices; since both `find` results and the slice
bounds live in the same index space, character indices give the same
fields. -/

/-- Model of `str::parse::<usize>()`: an optional `+` sign followed by
decimal digits, rejecting the empty string and values beyond u64. -/
def parseUsize (cs : List Char) : Option Nat :=
  let ds := match cs with
    | '+' :: rest => rest
    | _ => cs
  if ds ≠ [] ∧ ds.all (fun c => c.isDigit) then
    let v := ds.foldl (fun acc c => acc * 10 + (c.toNat - '0'.toNat)) 0
    if v < 2 ^ 64 then some v else none
  else none

/-- Model of `str::find`: the first index at which `pat` is a prefix of
the remaining suffix. -/
def findSub (pat : List Char) : List Char → Option Nat
  | [] => if pat = [] then some 0 else none
  | c :: cs =>
    if ((c :: cs).take pat.length) = pat then some 0
    else (findSub pat cs).map (fun i => i + 1)

/-- Embedding of `ChartRender::parse_variable`: the `?` early returns on
the two `find` calls are the `none` fallthrough of the outer match. -/
def parse_variable (s : String) : Option (Nat × String) :=
  match findSub ['$', '{'] s.data, findSub ['}'] s.data with
  | some l, some r =>
    if r > l + 2 then
      let var := (s.data.drop (l + 2)).take (r - (l + 2))
      let fields := splitn2 ':' var
      if fields.length ≤ 1 then some (0, String.mk (fields.getD 0 []))
      else
        match parseUsize (fields.getD 0 []) with
        | some index => some (index, String.mk (fields.getD 1 []))
        | none => none
    else none
  | _, _ => none

/-! ## Chart data walkers (src/render.rs 499-583)

The serde_yaml dynamic document is modelled as a tagged tree; float
numbers are irrelevant to the walked fields and are folded into the
opaque numeric constructor.  A `ColumnMap` is a mapping from column name
to a sequence of values; `HashMap` lookups are modelled over association
lists. -/

inductive Val where
  | nullV : Val
  | boolV : Bool → Val
  | intV : Int → Val
  | strV : String → Val
  | seqV : List Val → Val
  | mapV : List (Val × Val) → Val
  deriving Repr

/-- Model of `Value::as_str`. -/
def Val.asStr : Val → Option String
  | .strV s => some s
  | _ => none

/-- A query result: column name to sequence of values. -/
def ColumnMap := List (String × List Val)

/-- Model of `ColumnMap::get`. -/
def cmGet (cm : ColumnMap) (k : String) : Option (List Val) :=
  (cm.find? (fun e => e.1 = k)).map (fun e => e.2)

/-- One iteration of the shared item loop of `handle_labels_field` and
of the `data` arm of `handle_datasets_field`: a placeholder that
resolves extends the accumulator with the column values, a placeholder
that does not resolve contributes nothing, and a non-placeholder
element is pushed unchanged. -/
def resolveStep (cms : List ColumnMap) (acc : List Val) (item : Val) : List Val :=
  match parse_variable ((item.asStr).getD "") with
  | some var =>
    if var.1 < cms.length then
      match cmGet (cms.getD var.1 []) var.2 with
      | some v => acc ++ v
      | none => acc
    else acc
  | none => acc ++ [item]

/-- The shared item loop of `handle_labels_field` and of the `data` arm
of `handle_datasets_field`. -/
def resolveItems (cms : List ColumnMap) (items : List Val) : List Val :=
  items.foldl (resolveStep cms) []

/-- Embedding of `ChartRender::handle_labels_field`. -/
def handle_labels_field (cms : List ColumnMap) (v : Val) : Val :=
  match v with
  | .seqV items => .seqV (resolveItems cms items)
  | _ => v

/-- Embedding of `ChartRender::handle_colors_field`; the thread RNG draw
`rng.gen::<usize>()` is passed in as the explicit value `rng`, and the
palette table `colors` as an association list in iteration order. -/
def handle_colors_field (rng : Nat) (colors : List (String × List Val)) (v : Val) :
    Option (List Val) := do
  let var ← parse_variable ((v.asStr).getD "")
  if var.2 = "random" then
    let k ← (colors.map (fun e => e.1)).get? (rng % colors.length)
    (colors.find? (fun e => e.1 = k)).map (fun e => e.2)
  else
    (colors.find? (fun e => e.1 = var.2)).map (fun e => e.2)

/-- One key/value entry of a dataset mapping, as rewritten by
`handle_datasets_field`. -/
def transformDatasetEntry (rng : Nat) (colors : List (String × List Val))
    (cms : List ColumnMap) (kv : Val × Val) : Val × Val :=
  let dk := ((kv.1.asStr)).getD ""
  let dv := kv.2
  let dv :=
    if dk = "data" then
      match dv with
      | .seqV items => .seqV (resolveItems cms items)
      | _ => dv
    else dv
  let dv :=
    if dk = "backgroundColor" then
      match handle_colors_field rng colors dv with
      | some v => .seqV v
      | none => dv
    else dv
  (kv.1, dv)

/-- Embedding of `ChartRender::handle_datasets_field`. -/
def handle_datasets_field (rng : Nat) (colors : List (String × List Val))
    (cms : List ColumnMap) (v : Val) : Val :=
  match v with
  | .seqV datasets =>
    .seqV (datasets.map (fun ds =>
      match ds with
      | .mapV entries => .mapV (entries.map (transformDatasetEntry rng colors cms))
      | _ => ds))
  | _ => v

/-- Specification-side contribution of one element (from the words of the
amended claim): a resolved placeholder is replaced by the looked-up
column values, a failing placeholder is dropped, and a non-placeholder
element stays unchanged. -/
def specItem (cms : List ColumnMap) (item : Val) : List Val :=
  match parse_variable ((item.asStr).getD "") with
  | some var =>
    if var.1 < cms.length then (cmGet (cms.getD var.1 []) var.2).getD [] else []
  | none => [item]

/-! ## Numstat parsing (src/gitimp.rs 87-249)

The two statically-compiled regular expressions
`<(.*?)> <(.*)> <(.*)> <(.*?)>` and `([0-9-]+)\t([0-9-]+)\t(.*)` are
interpreted by a small backtracking matcher with leftmost-first
semantics (the preference order of the regex crate): a greedy piece
tries the longest candidate first, a lazy piece the shortest, and the
search tries start positions from the left. -/

inductive RTok where
  | lit : Char → RTok
  | anyStar : Bool → RTok
  | clsPlus : List Char → RTok

/-- Match a token list against a character list, returning the capture
groups of the first match in preference order; a trailing remainder is
allowed (`Regex::captures` searches, it does not anchor). -/
def matchToks : List RTok → List Char → Option (List (List Char))
  | [], _ => some []
  | .lit _ :: _, [] => none
  | .lit c :: ts, a :: s => if a = c then matchToks ts s else none
  | .anyStar greedy :: ts, s =>
    let ks := List.range (s.length + 1)
    let ks := if greedy then ks.reverse else ks
    ks.findSome? (fun k => (matchToks ts (s.drop k)).map (fun caps => s.take k :: caps))
  | .clsPlus cs :: ts, s =>
    let m := (s.takeWhile (fun c => cs.contains c)).length
    (List.range m).reverse.findSome?
      (fun j => (matchToks ts (s.drop (j + 1))).map (fun caps => s.take (j + 1) :: caps))

/-- Unanchored leftmost search of the pattern. -/
def regexCaptures (pat : List RTok) (s : String) : Option (List (List Char)) :=
  (List.range (s.data.length + 1)).findSome? (fun pos => matchToks pat (s.data.drop pos))

/-- The commit header pattern `<(.*?)> <(.*)> <(.*)> <(.*?)>`. -/
def commitInfoPat : List RTok :=
  [.lit '<', .anyStar false, .lit '>', .lit ' ',
   .lit '<', .anyStar true, .lit '>', .lit ' ',
   .lit '<', .anyStar true, .lit '>', .lit ' ',
   .lit '<', .anyStar false, .lit '>']

/-- The numstat row pattern `([0-9-]+)\t([0-9-]+)\t(.*)`. -/
def commitChangePat : List RTok :=
  [.clsPlus ['0', '1', '2', '3', '4', '5', '6', '7', '8', '9', '-'],
   .lit '\t',
   .clsPlus ['0', '1', '2', '3', '4', '5', '6', '7', '8', '9', '-'],
   .lit '\t',
   .anyStar true]

/-! ## Path extensions and their normalization (src/gitimp.rs 211-221) -/

/-- Model of `Path::extension` on the relative paths appearing in numstat
output: the portion of the file name (after the last `/`) that follows
its last `.`; none when there is no `.`, and none when the only `.` is
the leading character (a dotfile such as `.gitignore`). -/
def pathExtension (p : List Char) : Option (List Char) :=
  let name := (p.reverse.takeWhile (fun c => c ≠ '/')).reverse
  let revExt := name.reverse.takeWhile (fun c => c ≠ '.')
  if name.contains '.' then
    if revExt.length + 1 = name.length then none else some revExt.reverse
  else none

/-- UTF-8 byte length of a character list, the model of `String::len`. -/
def byteLen (cs : List Char) : Nat :=
  (cs.map Char.utf8Size).sum

/-- Embedding of the extension-normalization fragment of
`parse_commit_changes`: `n` is the byte length minus one, the character
at position `n` of the character iterator is inspected
(`chars().nth(n).unwrap()`), and when it is not ASCII-alphanumeric the
character at byte position `n` is removed.  A failing `unwrap` (possible
when the extension holds a multi-byte character) is `none`. -/
def normalizeExt (ext : List Char) : Option (List Char) :=
  let n := byteLen ext - 1
  match ext[n]? with
  | none => none
  | some c => if ¬ c.isAlphanum then some (ext.eraseIdx n) else some ext

/-! ## Commit parsing: Parser::parse_commit (src/gitimp.rs 161-249) -/

structure AuthorMapping where
  source : Author
  destination : Author
  deriving Repr, DecidableEq

structure Commit where
  hash : String
  author : Author
  datetime : String
  change_files : Nat
  changes : List (String × Nat × Nat)
  deriving Repr, DecidableEq

/-- Embedding of `Parser::parse_commit_info`: match the header regex,
read the four capture groups, then replace the author by the destination
of the first matching author mapping. -/
def parse_commit_info (line : String) (author_mappings : List AuthorMapping) :
    Option (String × String × Author) := do
  let caps ← regexCaptures commitInfoPat line
  let datetime := String.mk (caps.getD 0 [])
  let hash := String.mk (caps.getD 1 [])
  let author : Author := ⟨String.mk (caps.getD 2 []), String.mk (caps.getD 3 [])⟩
  let author :=
    match author_mappings.find? (fun m => m.source = author) with
    | some m => m.destination
    | none => author
  return (datetime, hash, author)

/-- Model of the `HashMap::entry(..).or_insert(..)` accumulation: group
by extension, summing insertions and deletions (association list in
first-seen order; the claims checked below are order-independent). -/
def upsertChange (changes : List (String × Nat × Nat)) (ext : String) (ins del : Nat) :
    List (String × Nat × Nat) :=
  if changes.any (fun c => c.1 = ext) then
    changes.map (fun c => if c.1 = ext then (c.1, c.2.1 + ins, c.2.2 + del) else c)
  else
    changes ++ [(ext, ins, del)]

/-- Embedding of `Parser::parse_commit_changes`: every line must match
the numstat regex (`none` otherwise); a `-` field parses as zero
(`unwrap_or_default`); the extension is taken from the path and
normalized; `count` counts raw lines. -/
def parse_commit_changes (lines : List String) : Option (Nat × List (String × Nat × Nat)) :=
  lines.foldl
    (fun acc line => do
      let (count, changes) ← acc
      let caps ← regexCaptures commitChangePat line
      let insertion := (parseUsize (caps.getD 0 [])).getD 0
      let deletion := (parseUsize (caps.getD 1 [])).getD 0
      let ext ←
        match pathExtension (caps.getD 2 []) with
        | some e => normalizeExt e
        | none => some []
      return (count + 1, upsertChange changes (String.mk ext) insertion deletion))
    (some (0, []))

/-- Embedding of `Parser::parse_commit`: the first line is the header,
the rest are change rows. -/
def parse_commit (lines : List String) (author_mappings : List AuthorMapping) :
    Option Commit := do
  match lines with
  | [] => none
  | l0 :: rest =>
    let (datetime, hash, author) ← parse_commit_info l0 author_mappings
    let (count, changes) ← parse_commit_changes rest
    return ⟨hash, author, datetime, count, changes⟩

/-! ## Remaining specification-side definitions used by the theorems -/

/-- The behaviour of `parse_variable` on a well-formed placeholder
`${inside}` (the amended description): with no `:` inside, index 0 and
the whole inside; with a `:` whose left part parses as a usize, that
index and the right part; otherwise no result. -/
def specParseVariable (inside : List Char) : Option (Nat × String) :=
  if (':') ∈ inside then
    match parseUsize (inside.takeWhile (fun c => c ≠ ':')) with
    | some index => some (index, String.mk (dropThrough ':' inside))
    | none => none
  else some (0, String.mk inside)

/-- Extensions on which normalization may safely be applied twice: the
empty extension, an extension ending in an ASCII-alphanumeric character,
or one whose trailing non-alphanumeric character is preceded by an
ASCII-alphanumeric one. -/
def extSafeTwice (ext : List Char) : Bool :=
  match ext.reverse with
  | [] => true
  | [a] => a.isAlphanum
  | a :: b :: _ => a.isAlphanum || b.isAlphanum

/-- Functional form of the two-pointer sweep restricted to the quantity
`max (final max) (final count)`, entering the element `x` with the
running count `c` for the current run: used to relate `calc_longest` to
the maximal-run specification. -/
def contFrom (c : Int) (x : Int) : List Int → Int
  | [] => c
  | y :: t =>
    if y - x = 0 ∨ y - x = 1 then contFrom (c + (y - x)) y t
    else max c (contFrom 1 y t)

/-- The final `max`/`count` upper envelope of a sweep state. -/
def maxcnt (s : LState) : Int :=
  max s.max s.count

/-- Invariant of the two-pointer sweep after the pairs up to index `i`
have been processed: the running count is at least one, the best count
is nonnegative, all stored indices are bounded by `i`, the recorded best
window is ordered, a moved left pointer implies a recorded best, and a
count of at least two implies the current window is ordered. -/
def sweepInv (i : Nat) (s : LState) : Prop :=
  1 ≤ s.count ∧ 0 ≤ s.max ∧ s.l ≤ i ∧ s.r ≤ i ∧ s.start ≤ s.stop ∧ s.stop ≤ i
  ∧ (s.l = 0 ∨ 1 ≤ s.max) ∧ (2 ≤ s.count → s.l < s.r)

/-- The four-datetime input column of the executor tests
(src/executor.rs 789-795). -/
def testColumn : List String :=
  ["2021-10-12T14:20:50.52+08:00", "2021-10-13T08:20:50.52+08:00",
   "2020-01-02T22:20:50.52+07:00", "2020-03-03T11:39:50.52+07:00"]

/-- The numstat block of the commit-parser test (src/gitimp.rs 552-564):
one header line and twelve numstat rows. -/
def testCommitBlock : List String :=
  ["<Mon Nov 8 23:34:49 2021 +0800> <414915edea035738cc314c8ffab7eccf4e608045> <chenjiandongx> <chenjiandongx@qq.com>",
   "19\t0\t.gitignore",
   "21\t0\tLICENSE",
   "1\t0\tREADME.md",
   "99\t0\tconn_darwin.go",
   "396\t0\tconn_linux.go",
   "71\t0\tconn_windows.go",
   "65\t0\tdns.go",
   "18\t0\tgo.mod",
   "52\t0\tgo.sum",
   "335\t0\tpcap.go",
   "261\t0\tstat.go",
   "250\t0\tui.go"]

/-! # Theorems -/

/-! ## splitn2 lemmas -/

theorem splitn2_of_not_mem (sep : Char) (cs : List Char) (h : sep ∉ cs) :
    splitn2 sep cs = [cs] := by
  induction cs with
  | nil => rfl
  | cons c cs ih =>
    rw [List.mem_cons, not_or] at h
    rw [splitn2, if_neg (fun hc => h.1 hc.symm), ih h.2]

theorem splitn2_of_mem (sep : Char) (cs : List Char) (h : sep ∈ cs) :
    splitn2 sep cs = [cs.takeWhile (fun c => c ≠ sep), dropThrough sep cs] := by
  induction cs with
  | nil => cases h
  | cons c cs ih =>
    by_cases hc : c = sep
    · subst hc
      rw [splitn2, if_pos rfl, dropThrough, if_pos rfl, List.takeWhile_cons]
      simp
    · have hm : sep ∈ cs := by
        rcases List.mem_cons.mp h with h1 | h1
        · exact absurd h1.symm hc
        · exact h1
      rw [splitn2, if_neg hc, ih hm, dropThrough,
        if_neg hc, List.takeWhile_cons]
      simp [hc]

/-! ## C3: Author::domain -/

/-- C3 counterexample: the claim says `domain` returns the substring
after the rightmost `@` (empty when `@` is absent); on `a@b@c` the
source returns `b@c`, the substring after the leftmost `@`, and on
`abc` it returns the whole email rather than the empty string. -/
theorem c3_domain_counterexample :
    domain ⟨"n", "a@b@c"⟩ ≠ String.mk (afterRightmostAt (("a@b@c" : String).data))
    ∧ domain ⟨"n", "abc"⟩ ≠ String.mk (afterRightmostAt (("abc" : String).data)) := by
  constructor <;> decide

/-- C3 amended: for every Author, `domain` returns the substring of the
email after the leftmost `@`, and returns the whole email unchanged when
the email contains no `@`. -/
theorem c3_domain_after_leftmost_at (a : Author) :
    domain a = String.mk (afterFirstAt a.email.data)
    ∧ (('@') ∉ a.email.data → domain a = a.email) := by
  have hmain : domain a = String.mk (afterFirstAt a.email.data) := by
    by_cases h : ('@') ∈ a.email.data
    · rw [domain, afterFirstAt, if_pos h, splitn2_of_mem _ _ h]
      rfl
    · rw [domain, afterFirstAt, if_neg h, splitn2_of_not_mem _ _ h]
      rfl
  refine ⟨hmain, fun h => ?_⟩
  rw [hmain, afterFirstAt, if_neg h]

/-- C3 witness: the amended theorem evaluated on the email `abc`. -/
theorem c3_domain_witness : domain ⟨"n", "abc"⟩ = "abc" :=
  (c3_domain_after_leftmost_at ⟨"n", "abc"⟩).2 (by decide)

/-! ## C4: ChartRender::parse_variable -/

theorem findSub_single_append (c : Char) (pre post : List Char) (h : c ∉ pre) :
    findSub [c] (pre ++ c :: post) = some pre.length := by
  induction pre with
  | nil =>
    rw [List.nil_append, findSub]
    simp
  | cons a pre ih =>
    rw [List.mem_cons, not_or] at h
    rw [List.cons_append, findSub]
    have hne : ¬ ((a :: (pre ++ c :: post)).take ([c] : List Char).length = [c]) := by
      simp only [List.length_cons, List.length_nil, Nat.zero_add, List.take_succ_cons,
        List.take_zero]
      intro he
      exact h.1 (List.cons_eq_cons.mp he).1.symm
    rw [if_neg hne, ih h.2]
    rfl

/-- C4 counterexample: on `${foo:bar}` the source parser returns no
result at all, not index 0 with column name `foo:bar`. -/
theorem c4_parse_variable_counterexample :
    parse_variable (String.mk ['$', '{', 'f', 'o', 'o', ':', 'b', 'a', 'r', '}']) = none
    ∧ parse_variable (String.mk ['$', '{', 'f', 'o', 'o', ':', 'b', 'a', 'r', '}'])
      ≠ some (0, String.mk ['f', 'o', 'o', ':', 'b', 'a', 'r']) := by
  constructor <;> decide

/-- C4 amended: for a placeholder `${inside}` with nonempty inside not
containing `}`, the parser splits once on `:`; with no `:` it yields
index 0 and the whole inside; with a `:` whose left part parses as a
usize it yields that index and the right part; otherwise it fails. -/
theorem c4_parse_variable_amended (inside : List Char)
    (h1 : inside ≠ []) (h2 : ('}') ∉ inside) :
    parse_variable (String.mk ('$' :: '{' :: inside ++ ['}'])) = specParseVariable inside := by
  have hfind1 : findSub ['$', '{'] ('$' :: '{' :: inside ++ ['}']) = some 0 := rfl
  have hfind2 : findSub ['}'] ('$' :: '{' :: inside ++ ['}']) = some (inside.length + 2) := by
    have h3 : ('}') ∉ '$' :: '{' :: inside := by
      simp only [List.mem_cons, not_or]
      exact ⟨by decide, by decide, h2⟩
    have h4 := findSub_single_append '}' ('$' :: '{' :: inside) [] h3
    simp only [List.cons_append, List.length_cons] at h4
    rw [show ('$' :: '{' :: inside ++ ['}'] : List Char) = '$' :: '{' :: (inside ++ '}' :: [])
      from by simp, h4]
  have hlen : 0 < inside.length := List.length_pos.mpr h1
  have hvar : (('$' :: '{' :: inside ++ ['}']).drop (0 + 2)).take (inside.length + 2 - (0 + 2))
      = inside := by
    simp only [Nat.zero_add, List.drop_succ_cons, List.drop_zero, Nat.add_sub_cancel]
    exact List.take_left inside ['}']
  have hdata : (String.mk ('$' :: '{' :: inside ++ ['}'])).data
      = '$' :: '{' :: inside ++ ['}'] := rfl
  rw [parse_variable, hdata, hfind1, hfind2]
  simp only [if_pos (by omega : inside.length + 2 > 0 + 2), hvar, specParseVariable]
  by_cases hc : (':') ∈ inside
  · rw [splitn2_of_mem _ _ hc, if_pos hc]
    have hnle : ¬ (([inside.takeWhile (fun c => c ≠ ':'), dropThrough ':' inside] :
        List (List Char)).length ≤ 1) := by
      simp
    rw [if_neg hnle]
    cases hp : parseUsize (inside.takeWhile (fun c => c ≠ ':')) with
    | none => simp only [List.getD, List.get?_cons_zero, List.get?_cons_succ,
        Option.getD_some, hp]
    | some ix => simp only [List.getD, List.get?_cons_zero, List.get?_cons_succ,
        Option.getD_some, hp]
  · rw [splitn2_of_not_mem _ _ hc, if_neg hc]
    simp [List.getD]

/-- C4 witness: the amended theorem evaluated on the placeholder
`${2:col}`. -/
theorem c4_parse_variable_witness :
    parse_variable (String.mk ('$' :: '{' :: ['2', ':', 'c', 'o', 'l'] ++ ['}']))
      = specParseVariable ['2', ':', 'c', 'o', 'l'] :=
  c4_parse_variable_amended ['2', ':', 'c', 'o', 'l'] (by decide) (by decide)

/-! ## C2: the streak aggregates on the four-datetime test column -/

/-- C2: evaluating the streak aggregates over the four-datetime column
yields count 2 and the boundary days `2021-10-12` and `2021-10-13` of
the winning run, rendered as UTC `YYYY-MM-DD` with no extra day added. -/
theorem c2_streak_aggregates_on_test_column :
    activeLongestCount testColumn = some 2
    ∧ activeLongestTime testColumn 1 = some ("2021-10-12")
    ∧ activeLongestTime testColumn 2 = some ("2021-10-13") := by
  refine ⟨?_, ?_, ?_⟩ <;> rfl

/-! ## C7: the commit parser on the numstat test block -/

/-- C7: parsing the test block (one header line plus twelve numstat
rows) with no author mappings yields `change_files = 12` (raw lines, not
distinct extensions), exactly 5 extension groups, 1588 summed insertions
and 0 summed deletions. -/
theorem c7_parse_commit_test_block :
    (parse_commit testCommitBlock []).map
      (fun c => (c.change_files, c.changes.length,
        (c.changes.map (fun x => x.2.1)).sum, (c.changes.map (fun x => x.2.2)).sum))
      = some (12, 5, 1588, 0) := by
  rfl

/-! ## C8 and C9: extension normalization -/

theorem length_le_byteLen (cs : List Char) : cs.length ≤ byteLen cs := by
  induction cs with
  | nil => simp [byteLen]
  | cons c cs ih =>
    have hpos : 0 < c.utf8Size := Char.utf8Size_pos c
    simp only [byteLen, List.map_cons, List.sum_cons, List.length_cons] at *
    omega

theorem byteLen_eq_length_iff (cs : List Char) :
    byteLen cs = cs.length ↔ ∀ c ∈ cs, c.utf8Size = 1 := by
  induction cs with
  | nil => simp [byteLen]
  | cons c cs ih =>
    have hpos : 0 < c.utf8Size := Char.utf8Size_pos c
    have hle : cs.length ≤ byteLen cs := length_le_byteLen cs
    simp only [byteLen, List.map_cons, List.sum_cons, List.length_cons, List.mem_cons] at *
    constructor
    · intro h
      have hsz : c.utf8Size = 1 ∧ byteLen cs = cs.length := by
        unfold byteLen at *
        omega
      intro a ha
      rcases ha with ha | ha
      · rw [ha]; exact hsz.1
      · exact (ih.mp hsz.2) a ha
    · intro h
      have h1 : c.utf8Size = 1 := h c (Or.inl rfl)
      have h2 : byteLen cs = cs.length := ih.mpr (fun a ha => h a (Or.inr ha))
      unfold byteLen at *
      omega

/-- C9: for a nonempty extension, the `chars().nth(len - 1).unwrap()`
lookup of the normalization yields a value exactly when every character
of the extension occupies a single byte; when some character is
multi-byte the normalization (and hence the numstat-line parse) has no
defined result. -/
theorem isSome_getElemQ (l : List Char) (i : Nat) : (l[i]?).isSome = true ↔ i < l.length := by
  constructor
  · intro h
    by_contra hn
    push_neg at hn
    rw [List.getElem?_eq_none hn] at h
    cases h
  · intro h
    rw [List.getElem?_eq_getElem h]
    rfl

theorem c9_normalization_charbound (ext : List Char) (hne : ext ≠ []) :
    ((ext[byteLen ext - 1]?).isSome ↔ ∀ c ∈ ext, c.utf8Size = 1)
    ∧ ((¬ ∀ c ∈ ext, c.utf8Size = 1) → normalizeExt ext = none) := by
  have hlen : 0 < ext.length := List.length_pos.mpr hne
  have hle : ext.length ≤ byteLen ext := length_le_byteLen ext
  have hiff : (ext[byteLen ext - 1]?).isSome ↔ ∀ c ∈ ext, c.utf8Size = 1 := by
    rw [show ((ext[byteLen ext - 1]?).isSome ↔ ∀ c ∈ ext, c.utf8Size = 1)
      = ((ext[byteLen ext - 1]?).isSome = true ↔ ∀ c ∈ ext, c.utf8Size = 1) from rfl,
      isSome_getElemQ]
    constructor
    · intro h
      exact (byteLen_eq_length_iff ext).mp (by omega)
    · intro h
      have := (byteLen_eq_length_iff ext).mpr h
      omega
  refine ⟨hiff, fun h => ?_⟩
  have : (ext[byteLen ext - 1]?).isSome = false := by
    rcases hn : ext[byteLen ext - 1]? with _ | c
    · rfl
    · exact absurd (hiff.mp (by rw [hn]; rfl)) h
  rw [normalizeExt]
  rcases hn : ext[byteLen ext - 1]? with _ | c
  · rfl
  · rw [hn] at this
    cases this

/-- C9 witness: the theorem evaluated at the single character `a`. -/
theorem c9_normalization_charbound_witness :
    (((['a'] : List Char)[byteLen ['a'] - 1]?).isSome ↔ ∀ c ∈ (['a'] : List Char),
      c.utf8Size = 1)
    ∧ ((¬ ∀ c ∈ (['a'] : List Char), c.utf8Size = 1) → normalizeExt ['a'] = none) :=
  c9_normalization_charbound ['a'] (by decide)

/-- C8 counterexample: the extension of the path `file.a!!` is `a!!`;
normalizing it once gives `a!` and twice gives `a`, so the
normalization is not idempotent. -/
theorem c8_normalization_counterexample :
    pathExtension (("file.a!!" : String).data) = some ['a', '!', '!']
    ∧ (normalizeExt ['a', '!', '!']).bind normalizeExt ≠ normalizeExt ['a', '!', '!'] := by
  constructor <;> decide

theorem eraseIdx_last (l : List Char) : l.eraseIdx (l.length - 1) = l.dropLast := by
  induction l with
  | nil => rfl
  | cons x t ih =>
    cases t with
    | nil => rfl
    | cons y t2 =>
      have h1 : (x :: y :: t2).length - 1 = (y :: t2).length - 1 + 1 := by
        simp
      rw [h1, List.eraseIdx_cons_succ, ih]
      rfl

/-- C8 amended: normalization applied twice agrees with normalization
applied once on every extension that is empty, ends in an
ASCII-alphanumeric character, or whose trailing non-alphanumeric
character is preceded by an ASCII-alphanumeric one; the counterexample
shows it is not idempotent in general. -/
theorem c8_normalization_conditional_idempotent (ext : List Char)
    (h : extSafeTwice ext = true) :
    (normalizeExt ext).bind normalizeExt = normalizeExt ext := by
  rcases hn : ext[byteLen ext - 1]? with _ | c
  · have hnone : normalizeExt ext = none := by
      simp [normalizeExt, hn]
    rw [hnone]
    rfl
  · have hsome : (ext[byteLen ext - 1]?).isSome = true := by rw [hn]; rfl
    have hne : ext ≠ [] := by
      rintro rfl
      rw [show (([] : List Char))[byteLen [] - 1]? = none from rfl] at hn
      cases hn
    have hlt := (isSome_getElemQ _ _).mp hsome
    have hle := length_le_byteLen ext
    have hlen0 : 0 < ext.length := List.length_pos.mpr hne
    have heq : byteLen ext = ext.length := by omega
    have hall : ∀ a ∈ ext, a.utf8Size = 1 := (byteLen_eq_length_iff ext).mp heq
    by_cases hal : c.isAlphanum
    · have hnorm : normalizeExt ext = some ext := by
        simp [normalizeExt, hn, hal]
      rw [hnorm, Option.some_bind, hnorm]
    · obtain ⟨c0, rest, hrev⟩ : ∃ c0 rest, ext.reverse = c0 :: rest := by
        cases hr : ext.reverse with
        | nil => exact absurd (by simpa using congrArg List.reverse hr) hne
        | cons a t => exact ⟨a, t, rfl⟩
      have hext : ext = rest.reverse ++ [c0] := by
        have := congrArg List.reverse hrev
        simpa using this
      have hc0 : ext[byteLen ext - 1]? = some c0 := by
        rw [heq, hext, show (rest.reverse ++ [c0]).length - 1 = rest.reverse.length from by simp]
        exact List.getElem?_concat_length rest.reverse c0
      have hcc : c = c0 := by
        rw [hn] at hc0
        exact Option.some.inj hc0
      subst hcc
      have hsafe := h
      rw [extSafeTwice, hrev] at hsafe
      cases rest with
      | nil => exact absurd hsafe (by simpa using hal)
      | cons b rest2 =>
        have hbal : b.isAlphanum = true := by
          rcases Bool.or_eq_true_iff.mp hsafe with hx | hx
          · exact absurd hx hal
          · exact hx
        have hdrop : ext.eraseIdx (byteLen ext - 1) = ext.dropLast := by
          rw [heq]
          exact eraseIdx_last ext
        have hnorm : normalizeExt ext = some ext.dropLast := by
          simp [normalizeExt, hn, hal, hdrop]
        have hdl : ext.dropLast = (b :: rest2).reverse := by
          rw [hext]
          exact List.dropLast_concat
        have hpre : ext.dropLast = rest2.reverse ++ [b] := by
          rw [hdl, List.reverse_cons]
        have hpreall : ∀ a ∈ ext.dropLast, a.utf8Size = 1 := by
          intro a ha
          refine hall a ?_
          rw [hext]
          rw [hdl] at ha
          exact List.mem_append_left _ ha
        have hprelen : byteLen ext.dropLast = ext.dropLast.length :=
          (byteLen_eq_length_iff ext.dropLast).mpr hpreall
        have hprelast : ext.dropLast[byteLen ext.dropLast - 1]? = some b := by
          rw [hprelen, hpre, show (rest2.reverse ++ [b]).length - 1 = rest2.reverse.length
            from by simp]
          exact List.getElem?_concat_length rest2.reverse b
        have hnormpre : normalizeExt ext.dropLast = some ext.dropLast := by
          simp [normalizeExt, hprelast, hbal]
        rw [hnorm, Option.some_bind, hnormpre]

/-- C8 witness: the amended theorem evaluated on the extension `go`. -/
theorem c8_normalization_witness :
    (normalizeExt ['g', 'o']).bind normalizeExt = normalizeExt ['g', 'o'] :=
  c8_normalization_conditional_idempotent ['g', 'o'] (by decide)

/-! ## C5: unresolved chart placeholders -/

theorem resolveStep_eq_append (cms : List ColumnMap) (acc : List Val) (item : Val) :
    resolveStep cms acc item = acc ++ specItem cms item := by
  rw [resolveStep, specItem]
  cases parse_variable ((item.asStr).getD "") with
  | none => rfl
  | some var =>
    simp only
    by_cases hlt : var.1 < cms.length
    · rw [if_pos hlt, if_pos hlt]
      cases cmGet (cms.getD var.1 []) var.2 with
      | none => simp
      | some v => rfl
    · rw [if_neg hlt, if_neg hlt]
      simp

theorem resolveItems_eq_flatMap (cms : List ColumnMap) (items : List Val) :
    resolveItems cms items = items.flatMap (specItem cms) := by
  have hgen : ∀ (its : List Val) (acc : List Val),
      its.foldl (resolveStep cms) acc = acc ++ its.flatMap (specItem cms) := by
    intro its
    induction its with
    | nil => intro acc; simp
    | cons x xs ih =>
      intro acc
      rw [List.foldl_cons, ih, resolveStep_eq_append, List.flatMap_cons, List.append_assoc]
  rw [resolveItems, hgen]
  rfl

/-- C5 counterexample: the placeholder `${missing}` does not resolve in
the single empty ColumnMap, and the renderer drops it from the labels
sequence rather than leaving it unchanged. -/
theorem c5_unresolved_dropped_counterexample :
    handle_labels_field [([] : ColumnMap)]
        (.seqV [.strV (String.mk ['$', '{', 'm', 'i', 's', 's', 'i', 'n', 'g', '}'])])
      = .seqV []
    ∧ (Val.seqV [] : Val)
      ≠ .seqV [.strV (String.mk ['$', '{', 'm', 'i', 's', 's', 'i', 'n', 'g', '}'])] := by
  constructor
  · rfl
  · simp

/-- C5 amended: walking a labels sequence or a dataset `data` sequence
replaces each element by its `specItem` expansion: a resolved
placeholder is inlined, a failing placeholder is removed from the
resulting sequence, and a non-placeholder element stays unchanged. -/
theorem c5_walk_flatMap :
    (∀ (cms : List ColumnMap) (items : List Val),
      handle_labels_field cms (.seqV items) = .seqV (items.flatMap (specItem cms)))
    ∧ (∀ (rng : Nat) (colors : List (String × List Val)) (cms : List ColumnMap)
        (items : List Val),
      transformDatasetEntry rng colors cms (.strV ("data"), .seqV items)
        = (.strV ("data"), .seqV (items.flatMap (specItem cms)))) := by
  constructor
  · intro cms items
    rw [handle_labels_field, resolveItems_eq_flatMap]
  · intro rng colors cms items
    simp only [transformDatasetEntry, Val.asStr, Option.getD_some, eq_self_iff_true,
      if_true, resolveItems_eq_flatMap]
    rw [if_neg (show ¬ ("data" : String) = "backgroundColor" from by decide)]

/-! ## C6: GitImpl::calc_range -/

theorem numFullWindows_ge_one (d s e : Int) (hd : 0 < d) (hc : s + d ≤ e) :
    1 ≤ numFullWindows d s e := by
  rw [numFullWindows, if_pos hc]
  have h1 : d.toNat ≤ (e - s).toNat := by omega
  have h2 : 0 < d.toNat := by omega
  exact (Nat.one_le_div_iff h2).mpr h1

theorem numFullWindows_shift (d s e : Int) (hd : 0 < d) (hc : s + d ≤ e) :
    numFullWindows d s e = numFullWindows d (s + d) e + 1 := by
  have h2 : 0 < d.toNat := by omega
  have hsub : (e - s).toNat = (e - (s + d)).toNat + d.toNat := by omega
  rw [numFullWindows, if_pos hc, hsub, Nat.add_div_right _ h2]
  by_cases hc2 : s + d + d ≤ e
  · rw [numFullWindows, if_pos hc2]
  · rw [numFullWindows, if_neg hc2]
    have hlt : (e - (s + d)).toNat < d.toNat := by omega
    rw [Nat.div_eq_of_lt hlt]

theorem windowsSpec_shift (d s e : Int) (hd : 0 < d) (hc : s + d ≤ e) :
    windowsSpec d s e = (formatYmd s, formatYmd (s + d)) :: windowsSpec d (s + d) e := by
  simp only [windowsSpec]
  rw [numFullWindows_shift d s e hd hc, List.range_succ_eq_map]
  simp only [List.map_cons, List.map_map, List.cons_append]
  have h0 : s + (0 : Nat) * d = s := by push_cast; ring
  have h1 : s + ((0 : Nat) + 1) * d = s + d := by push_cast; ring
  rw [h0, h1]
  congr 1
  · congr 1
    · apply List.map_congr_left
      intro i _
      have ha : s + ((i : Int) + 1 + 1) * d = s + d + ((i : Int) + 1) * d := by ring
      have hb : s + ((i : Int) + 1) * d = s + d + (i : Int) * d := by ring
      simp only [Function.comp]
      push_cast
      rw [ha, hb]
    · have hm : s + ((numFullWindows d (s + d) e : Int) + 1) * d
          = s + d + (numFullWindows d (s + d) e : Int) * d := by ring
      push_cast
      rw [hm]

theorem calcRangeGo_eq_windowsSpec (d e : Int) (hd : 0 < d) :
    ∀ (n : Nat) (s : Int), (e - s).toNat ≤ n → calcRangeGo d e s = windowsSpec d s e := by
  intro n
  induction n with
  | zero =>
    intro s hs
    have hc : ¬ (s + d ≤ e) := by omega
    rw [calcRangeGo, dif_neg (fun h => hc h.2)]
    simp only [windowsSpec, numFullWindows, if_neg hc, List.range_zero, List.map_nil,
      List.nil_append]
    have h0 : s + ((0 : Nat) : Int) * d = s := by push_cast; ring
    rw [h0]
  | succ n ih =>
    intro s hs
    by_cases hc : s + d ≤ e
    · rw [calcRangeGo, dif_pos ⟨hd, hc⟩, ih (s + d) (by omega),
        windowsSpec_shift d s e hd hc]
    · rw [calcRangeGo, dif_neg (fun h => hc h.2)]
      simp only [windowsSpec, numFullWindows, if_neg hc, List.range_zero, List.map_nil,
        List.nil_append]
      have h0 : s + ((0 : Nat) : Int) * d = s := by push_cast; ring
      rw [h0]

/-- C6: `calc_range` emits consecutive full windows of exactly
`duration` seconds while one fits before `end`, followed by one final
short window ending at `end`; in particular the 86400-second example of
the source test yields the four UTC day pairs. -/
theorem c6_calc_range_windows :
    (∀ d s e : Int, 0 < d → calc_range d s e = windowsSpec d s e)
    ∧ calc_range 86400 1647432000 (1647432000 + 3 * 86400 + 720)
      = [("2022-03-16", "2022-03-17"), ("2022-03-17", "2022-03-18"),
         ("2022-03-18", "2022-03-19"), ("2022-03-19", "2022-03-19")] := by
  have hgen : ∀ d s e : Int, 0 < d → calc_range d s e = windowsSpec d s e := by
    intro d s e hd
    exact calcRangeGo_eq_windowsSpec d e hd (e - s).toNat s le_rfl
  refine ⟨hgen, ?_⟩
  rw [hgen 86400 1647432000 (1647432000 + 3 * 86400 + 720) (by norm_num)]
  decide

/-- C6 witness: the structural part evaluated at the test input. -/
theorem c6_calc_range_witness :
    calc_range 86400 1647432000 (1647432000 + 3 * 86400 + 720)
      = windowsSpec 86400 1647432000 (1647432000 + 3 * 86400 + 720) :=
  c6_calc_range_windows.1 86400 1647432000 (1647432000 + 3 * 86400 + 720) (by norm_num)

/-! ## C10: calc_longest invariants -/

theorem sweep_preserves_inv (ratio : Int) :
    ∀ (rest : List Int) (x : Int) (i : Nat) (s : LState), sweepInv i s →
      sweepInv (i + (x :: rest).length - 1) (sweep ratio s i (x :: rest)) := by
  intro rest
  induction rest with
  | nil =>
    intro x i s h
    simpa [sweep] using h
  | cons y t ih =>
    intro x i s h
    rw [sweep]
    have hstep : ∀ u : LState, sweepInv (i + 1) u →
        sweepInv (i + (x :: y :: t).length - 1) (sweep ratio u (i + 1) (y :: t)) := by
      intro u hu
      have := ih y (i + 1) u hu
      have hlen : i + 1 + (y :: t).length - 1 = i + (x :: y :: t).length - 1 := by
        simp only [List.length_cons]
        omega
      rwa [hlen] at this
    apply hstep
    by_cases hk : Int.tdiv y ratio - Int.tdiv x ratio = 0
      ∨ Int.tdiv y ratio - Int.tdiv x ratio = 1
    · rw [if_pos hk]
      simp only [sweepInv] at h ⊢
      rcases hk with hk | hk <;> rw [hk] <;> omega
    · rw [if_neg hk]
      by_cases hcm : s.count > s.max
      · rw [if_pos hcm]
        simp only [sweepInv] at h ⊢
        omega
      · rw [if_neg hcm]
        simp only [sweepInv] at h ⊢
        omega

theorem getD_mem_of_lt (data : List Int) (i : Nat) (hi : i < data.length) :
    data.getD i 0 ∈ data := by
  rw [List.getD_eq_getElem?_getD, List.getElem?_eq_getElem hi, Option.getD_some]
  exact List.getElem_mem hi

theorem sorted_getD_le (data : List Int) (hs : List.Sorted (· ≤ ·) data) (i j : Nat)
    (hj : j < data.length) (hij : i ≤ j) :
    data.getD i 0 ≤ data.getD j 0 := by
  have hi : i < data.length := lt_of_le_of_lt hij hj
  rw [List.getD_eq_getElem?_getD, List.getElem?_eq_getElem hi, Option.getD_some,
    List.getD_eq_getElem?_getD, List.getElem?_eq_getElem hj, Option.getD_some]
  rcases Nat.lt_or_ge i j with hlt | hge
  · exact List.pairwise_iff_getElem.mp hs i j hi hj hlt
  · have : i = j := by omega
    subst this
    exact le_rfl

/-- C10: on every nonempty sorted list and ratio at least one,
`calc_longest` returns a triple `(count, start, end)` with a positive
count, `start` at most `end`, and both `start` and `end` elements of the
input list. -/
theorem c10_calc_longest_invariants (data : List Int) (ratio : Int)
    (hne : data ≠ []) (hs : List.Sorted (· ≤ ·) data) (_hr : 1 ≤ ratio) :
    1 ≤ (calc_longest data ratio).1
    ∧ (calc_longest data ratio).2.1 ≤ (calc_longest data ratio).2.2
    ∧ (calc_longest data ratio).2.1 ∈ data
    ∧ (calc_longest data ratio).2.2 ∈ data := by
  match data with
  | [] => exact absurd rfl hne
  | [x] =>
    refine ⟨by norm_num [calc_longest], ?_, ?_, ?_⟩ <;> simp [calc_longest]
  | x :: y :: rest =>
    have hinit : sweepInv 0 ⟨1, 0, 0, 0, 0, 0⟩ := by
      rw [sweepInv]
      refine ⟨le_rfl, le_rfl, Nat.le_refl 0, Nat.le_refl 0, Nat.le_refl 0, Nat.le_refl 0,
        Or.inl rfl, fun hc => absurd hc (by norm_num)⟩
    have hinv := sweep_preserves_inv ratio (y :: rest) x 0 ⟨1, 0, 0, 0, 0, 0⟩ hinit
    have hn : (x :: y :: rest).length = rest.length + 2 := by simp
    rw [show (0 + (x :: y :: rest).length - 1) = rest.length + 1 from by omega] at hinv
    rw [calc_longest]
    set sF := sweep ratio ⟨1, 0, 0, 0, 0, 0⟩ 0 (x :: y :: rest) with hsF
    obtain ⟨h1, h2, h3, h4, h5, h6, h7, h8⟩ := hinv
    have hlen : rest.length + 1 < (x :: y :: rest).length := by omega
    by_cases hb : sF.count > sF.max
    · rw [if_pos hb]
      have hlr : sF.l ≤ sF.r := by
        by_cases hc2 : 2 ≤ sF.count
        · exact le_of_lt (h8 hc2)
        · rcases h7 with h7 | h7 <;> omega
      refine ⟨by simp only []; omega, ?_, ?_, ?_⟩
      · exact sorted_getD_le _ hs sF.l sF.r (by omega) hlr
      · exact getD_mem_of_lt _ sF.l (by omega)
      · exact getD_mem_of_lt _ sF.r (by omega)
    · rw [if_neg hb]
      refine ⟨by simp only []; omega, ?_, ?_, ?_⟩
      · exact sorted_getD_le _ hs sF.start sF.stop (by omega) h5
      · exact getD_mem_of_lt _ sF.start (by omega)
      · exact getD_mem_of_lt _ sF.stop (by omega)

/-! ## C1: calc_longest against the maximal-run specification -/

theorem runs_cons (l : List Int) : ∀ x : Int, ∃ g gs, runs (x :: l) = (x :: g) :: gs := by
  induction l with
  | nil => exact fun x => ⟨[], [], rfl⟩
  | cons y t ih =>
    intro x
    obtain ⟨g, gs, hg⟩ := ih y
    rw [runs, hg]
    simp only []
    by_cases hk : y - x = 0 ∨ y - x = 1
    · exact ⟨y :: g, gs, by rw [if_pos hk]⟩
    · exact ⟨[], (y :: g) :: gs, by rw [if_neg hk]⟩

theorem runs_head_le :
    ∀ (t : List Int) (y : Int) (g : List Int) (gs : List (List Int)),
      runs (y :: t) = (y :: g) :: gs → ∀ z ∈ g, y ≤ z := by
  intro t
  induction t with
  | nil =>
    intro y g gs hr z hz
    rw [runs] at hr
    obtain ⟨hg, _⟩ := List.cons_eq_cons.mp hr
    obtain ⟨_, hg2⟩ := List.cons_eq_cons.mp hg
    rw [← hg2] at hz
    cases hz
  | cons w t ih =>
    intro y g gs hr z hz
    obtain ⟨g2, gs2, hg2⟩ := runs_cons t w
    rw [runs, hg2] at hr
    simp only [] at hr
    by_cases hk : w - y = 0 ∨ w - y = 1
    · rw [if_pos hk] at hr
      obtain ⟨hhead, htail⟩ := List.cons_eq_cons.mp hr
      obtain ⟨_, hg⟩ := List.cons_eq_cons.mp hhead
      rw [← hg] at hz
      have hyw : y ≤ w := by omega
      rcases List.mem_cons.mp hz with hz | hz
      · omega
      · exact le_trans hyw (ih w g2 gs2 hg2 z hz)
    · rw [if_neg hk] at hr
      obtain ⟨hhead, _⟩ := List.cons_eq_cons.mp hr
      obtain ⟨_, hg⟩ := List.cons_eq_cons.mp hhead
      rw [← hg] at hz
      cases hz

theorem contFrom_ge : ∀ (l : List Int) (x c : Int), c ≤ contFrom c x l := by
  intro l
  induction l with
  | nil => intro x c; exact le_rfl
  | cons y t ih =>
    intro x c
    rw [contFrom]
    by_cases hk : y - x = 0 ∨ y - x = 1
    · rw [if_pos hk]
      have h1 : c ≤ c + (y - x) := by rcases hk with hk | hk <;> omega
      exact le_trans h1 (ih y (c + (y - x)))
    · rw [if_neg hk]
      exact le_max_left c _

theorem runDistinct_singleton (x : Int) : runDistinct [x] = 1 := by
  simp [runDistinct]

theorem contFrom_spec :
    ∀ (l : List Int) (x c : Int), 1 ≤ c →
      ∀ (g : List Int) (gs : List (List Int)), runs (x :: l) = (x :: g) :: gs →
        contFrom c x l = max (c + runDistinct (x :: g) - 1) ((gs.map runDistinct).foldr max 0) := by
  intro l
  induction l with
  | nil =>
    intro x c hc g gs hr
    rw [runs] at hr
    obtain ⟨hhead, htail⟩ := List.cons_eq_cons.mp hr
    obtain ⟨_, hg⟩ := List.cons_eq_cons.mp hhead
    rw [← hg, ← htail]
    rw [contFrom, runDistinct_singleton]
    have h1 : c + 1 - 1 = c := by ring
    rw [h1]
    simp only [List.map_nil, List.foldr_nil]
    exact (max_eq_left (by omega)).symm
  | cons y t ih =>
    intro x c hc g gs hr
    obtain ⟨g2, gs2, hg2⟩ := runs_cons t y
    rw [runs, hg2] at hr
    simp only [] at hr
    rw [contFrom]
    by_cases hk : y - x = 0 ∨ y - x = 1
    · rw [if_pos hk] at hr
      rw [if_pos hk]
      obtain ⟨hhead, htail⟩ := List.cons_eq_cons.mp hr
      obtain ⟨_, hg⟩ := List.cons_eq_cons.mp hhead
      have hc2 : 1 ≤ c + (y - x) := by rcases hk with hk | hk <;> omega
      rw [ih y (c + (y - x)) hc2 g2 gs2 hg2, ← htail, ← hg]
      have hRD : runDistinct (x :: y :: g2) = runDistinct (y :: g2) + (y - x) := by
        rcases hk with hk | hk
        · have hxy : x = y := by omega
          subst hxy
          rw [hk]
          have hmem : x ∈ x :: g2 := List.mem_cons_self x g2
          simp [runDistinct, List.dedup_cons_of_mem hmem]
        · have hnmem : x ∉ y :: g2 := by
            intro hmem
            have hall : ∀ z ∈ y :: g2, y ≤ z := by
              intro z hz
              rcases List.mem_cons.mp hz with hz | hz
              · omega
              · exact runs_head_le t y g2 gs2 hg2 z hz
            have := hall x hmem
            omega
          rw [hk]
          simp only [runDistinct, List.dedup_cons_of_not_mem hnmem, List.length_cons]
          push_cast
          ring
      have harith : c + (y - x) + runDistinct (y :: g2) - 1
          = c + runDistinct (x :: y :: g2) - 1 := by
        rw [hRD]
        ring
      rw [harith]
    · rw [if_neg hk] at hr
      rw [if_neg hk]
      obtain ⟨hhead, htail⟩ := List.cons_eq_cons.mp hr
      obtain ⟨_, hg⟩ := List.cons_eq_cons.mp hhead
      rw [ih y 1 le_rfl g2 gs2 hg2, ← htail, ← hg]
      have h1 : (1 : Int) + runDistinct (y :: g2) - 1 = runDistinct (y :: g2) := by ring
      rw [h1, runDistinct_singleton, List.map_cons, List.foldr_cons]
      have h2 : c + 1 - 1 = c := by ring
      rw [h2]

theorem sweep_maxcnt :
    ∀ (l : List Int) (x : Int) (i : Nat) (s : LState),
      maxcnt (sweep 1 s i (x :: l)) = max s.max (contFrom s.count x l) := by
  intro l
  induction l with
  | nil =>
    intro x i s
    rfl
  | cons y t ih =>
    intro x i s
    rw [sweep]
    simp only [Int.tdiv_one]
    by_cases hk : y - x = 0 ∨ y - x = 1
    · rw [if_pos hk, ih, contFrom, if_pos hk]
    · rw [if_neg hk]
      by_cases hcm : s.count > s.max
      · rw [if_pos hcm, ih, contFrom, if_neg hk]
        simp only []
        rw [← max_assoc, max_eq_right (le_of_lt hcm)]
      · rw [if_neg hcm, ih, contFrom, if_neg hk]
        simp only []
        rw [← max_assoc, max_eq_left (le_of_not_lt hcm)]

theorem calc_longest_fst_eq_maxcnt (x y : Int) (rest : List Int) (ratio : Int) :
    (calc_longest (x :: y :: rest) ratio).1
      = maxcnt (sweep ratio ⟨1, 0, 0, 0, 0, 0⟩ 0 (x :: y :: rest)) := by
  rw [calc_longest, maxcnt]
  set sF := sweep ratio ⟨1, 0, 0, 0, 0, 0⟩ 0 (x :: y :: rest) with hsF
  by_cases hb : sF.count > sF.max
  · rw [if_pos hb]
    exact (max_eq_right (le_of_lt hb)).symm
  · rw [if_neg hb]
    exact (max_eq_left (le_of_not_lt hb)).symm

/-- C1 counterexample: on the sorted list `[1, 1]` the first component
of `calc_longest` with ratio 1 is 1, while the longest maximal run
(the whole list) has length 2. -/
theorem c1_calc_longest_counterexample :
    (calc_longest [1, 1] 1).1 ≠ longestRunByLength [1, 1] := by
  decide

/-- C1 amended: for every sorted list the first component of
`calc_longest(data, 1)` equals the largest number of distinct values
over the maximal runs whose consecutive differences are in `{0, 1}`
(which is the run length only when values are distinct); the empty
list yields `(0, 0, 0)`, a one-element list `[x]` yields `(1, x, x)`,
and on the tie-break example the earlier run is kept. -/
theorem c1_calc_longest_amended :
    (∀ data : List Int, List.Sorted (· ≤ ·) data →
      (calc_longest data 1).1 = longestRunByDistinct data)
    ∧ calc_longest ([] : List Int) 1 = (0, 0, 0)
    ∧ (∀ x : Int, calc_longest [x] 1 = (1, x, x))
    ∧ calc_longest [1, 2, 3, 4, 5, 9, 20, 21, 22, 23, 24] 1 = (5, 1, 5) := by
  refine ⟨?_, rfl, fun x => rfl, by decide⟩
  intro data _
  match data with
  | [] => rfl
  | [x] =>
    simp [calc_longest, longestRunByDistinct, runs, runDistinct]
  | x :: y :: rest =>
    rw [calc_longest_fst_eq_maxcnt, sweep_maxcnt]
    obtain ⟨g, gs, hg⟩ := runs_cons (y :: rest) x
    rw [contFrom_spec (y :: rest) x 1 le_rfl g gs hg]
    have h1 : (1 : Int) + runDistinct (x :: g) - 1 = runDistinct (x :: g) := by ring
    rw [h1, longestRunByDistinct, hg, List.map_cons, List.foldr_cons]
    simp only []
    rw [max_eq_right]
    have hge : (1 : Int) ≤ max (runDistinct (x :: g)) ((gs.map runDistinct).foldr max 0) := by
      refine le_trans ?_ (le_max_left _ _)
      simp only [runDistinct]
      have hxmem : x ∈ (x :: g).dedup := List.mem_dedup.mpr (List.mem_cons_self x g)
      have : 0 < (x :: g).dedup.length := List.length_pos_of_mem hxmem
      omega
    omega

/-- C1 witness: the amended equality evaluated on the sorted list
`[1, 1, 2]` with a duplicate. -/
theorem c1_calc_longest_witness :
    (calc_longest [1, 1, 2] 1).1 = longestRunByDistinct [1, 1, 2] :=
  c1_calc_longest_amended.1 [1, 1, 2] (by decide)

/-- C10 witness: the invariants evaluated on the sorted list `[3, 4, 9]`
with ratio 1. -/
theorem c10_calc_longest_invariants_witness :
    1 ≤ (calc_longest [3, 4, 9] 1).1
    ∧ (calc_longest [3, 4, 9] 1).2.1 ≤ (calc_longest [3, 4, 9] 1).2.2
    ∧ (calc_longest [3, 4, 9] 1).2.1 ∈ [3, 4, 9]
    ∧ (calc_longest [3, 4, 9] 1).2.2 ∈ [3, 4, 9] :=
  c10_calc_longest_invariants [3, 4, 9] 1 (by decide)
    (by norm_num [List.sorted_cons]) (by norm_num)

end Gitv
